import Mathlib

/-!
Verification of the tennis-brackets scoring and elimination-inference engine.

The definitions below are a shallow embedding of the Python sources:
`src/functions/main.py` (the live Cloud Function engine),
`src/generate_viewer.py` (the offline viewer generator),
`src/scripts/calculate_scores.py` and `src/legacy_scripts/score_manager.py`
(points tables).  Dictionaries are modelled as association lists with
`List.lookup` semantics, Python sets as `Finset String`, raised exceptions as
`Except String`, and Python `int` as `Int`.
-/

namespace Brackets

/-- A pick/result value as stored in the data: either a bare name string or a
`[seed, name]` pair (Python `str` vs two-element `list`), mirroring the
dynamic typing of `picks`/`actual_results` values in `src/functions/main.py`. -/
inductive PickVal where
  | str (s : String)
  | pair (seed name : String)
  deriving DecidableEq, Repr

/-- Python `s.strip()` on a string: drop whitespace from both ends. -/
def pyStrip (s : String) : String :=
  String.mk (((s.data.dropWhile Char.isWhitespace).reverse.dropWhile
    Char.isWhitespace).reverse)

/-- `(data[1] if isinstance(data, list) else data).strip()` —
the name-extraction idiom used at `src/functions/main.py` lines 77, 85, 129,
147, 151. -/
def extractName : PickVal → String
  | .str s => pyStrip s
  | .pair _ n => pyStrip n

/-- Python truthiness of a pick/result value: an empty string is falsy, a
(two-element) list is always truthy. -/
def truthyVal : PickVal → Bool
  | .str s => !(s = "")
  | .pair _ _ => true

/-- Whether `pat` occurs as a contiguous run inside `l`. -/
def charsContain (pat : List Char) : List Char → Bool
  | [] => pat.isEmpty
  | c :: rest => pat.isPrefixOf (c :: rest) || charsContain pat rest

/-- Python `pat in s` substring test on strings. -/
def pyIn (pat s : String) : Bool :=
  charsContain pat.data s.data

/-- Equality of `Except` values is decidable componentwise. -/
instance exceptDecEq {ε α : Type} [DecidableEq ε] [DecidableEq α] :
    DecidableEq (Except ε α) := fun a b =>
  match a, b with
  | .error e, .error f => decidable_of_iff (e = f) (by simp)
  | .error _, .ok _ => .isFalse (by simp)
  | .ok _, .error _ => .isFalse (by simp)
  | .ok a, .ok b => decidable_of_iff (a = b) (by simp)

/-- Python `s.split('-')` (single-character separator). -/
def pySplitDash (s : String) : List String :=
  (s.data.splitOn '-').map String.mk

/-- Python `int(s)` restricted to non-negative digit strings (the only shape a
match index takes after splitting a match key on `-`); anything else raises. -/
def pyToNat? (s : String) : Option Nat :=
  if s.data ≠ [] ∧ s.data.all Char.isDigit then
    some (s.data.foldl (fun n c => n * 10 + (c.toNat - 48)) 0)
  else none

/-- An entrant as stored in the tournament JSON: a `[seed, name]` pair. -/
abbrev Entrant := String × String

/-- One first-round match of a draw: its `players` list, always two entrants. -/
abbrev DrawMatch := Entrant × Entrant

/-- The `initial_entrants` JSON object: the two categories' draws
(`mens_draw` / `womens_draw`), each an ordered list of first-round matches. -/
structure InitialEntrants where
  mens_draw : List DrawMatch
  womens_draw : List DrawMatch
  deriving DecidableEq, Repr

/-- An `actual_results` (or `picks`) mapping: match-key string to value.
Python dict modelled as an association list; `List.lookup` is `dict.get`. -/
abbrev ResultsMap := List (String × PickVal)

/-- `ROUNDS = ["r32", "r16", "qf", "sf", "f"]` (`src/functions/main.py` line 14). -/
def ROUNDS : List String := ["r32", "r16", "qf", "sf", "f"]

/-- Parsing of a match key inside `get_eliminated_players`
(`src/functions/main.py` lines 132-133):
`parts = match_id.split('-')`, `round_key = parts[1]` (IndexError when there
is no second part), `match_idx = int(parts[-1])` (ValueError when the last
part is not a number); `parts[0]` is the category prefix. -/
def parseMatchId (matchId : String) : Except String (String × String × Nat) :=
  let parts := pySplitDash matchId
  match parts.get? 1 with
  | none => .error "IndexError: list index out of range"
  | some rk =>
    match pyToNat? (parts.getLastD "") with
    | none => .error "ValueError: invalid literal for int"
    | some idx => .ok (parts.headD "", rk, idx)

/-- Feeder-winner lookup (`src/functions/main.py` lines 145-151):
`data = actual_results.get(id)`; `if data: name = extract(data).strip()`. -/
def feederName (results : ResultsMap) (id : String) : Option String :=
  match results.lookup id with
  | some d => if truthyVal d then some (extractName d) else none
  | none => none

/-- The single-match occupant resolution of `get_eliminated_players`
(`src/functions/main.py` lines 135-151), after the match key has been parsed
into `(category-prefix, round_key, match_idx)`; `useMens` records the result
of the `'mens' in match_id` category test of line 131.  First round (`r32`):
the statically stored pair of the selected draw (IndexError when the index is
out of range).  Later rounds: `ROUNDS.index(round_key)` (ValueError when the
round key is unknown), then the recorded winners of the two feeder matches
`2*idx` and `2*idx+1` of the previous round, `None` when absent or falsy. -/
def resolveCore (initial : InitialEntrants) (results : ResultsMap)
    (useMens : Bool) (cat rk : String) (idx : Nat) :
    Except String (Option String × Option String) :=
  if rk = "r32" then
    let draw := if useMens then initial.mens_draw else initial.womens_draw
    match draw.get? idx with
    | none => .error "IndexError: list index out of range"
    | some m => .ok (some m.1.2, some m.2.2)
  else
    match ROUNDS.findIdx? (fun r => r == rk) with
    | none => .error "ValueError: not in list"
    | some ri =>
      let prevRk := ROUNDS.getD (ri - 1) ""
      let p1Id := cat ++ "-" ++ prevRk ++ "-match-" ++ toString (idx * 2)
      let p2Id := cat ++ "-" ++ prevRk ++ "-match-" ++ toString (idx * 2 + 1)
      .ok (feederName results p1Id, feederName results p2Id)

/-- Full single-match resolution for one `actual_results` key
(`src/functions/main.py` lines 131-151): the category test
`'mens' in match_id` selects `mens_draw`/`womens_draw`, then the key is
parsed and the occupants resolved. -/
def resolveOccupants (initial : InitialEntrants) (results : ResultsMap)
    (matchId : String) : Except String (Option String × Option String) :=
  match parseMatchId matchId with
  | .error e => .error e
  | .ok (cat, rk, idx) =>
    resolveCore initial results (pyIn "mens" matchId) cat rk idx

/-- The per-match elimination update (`src/functions/main.py` lines 153-155):
`if p1_name and p2_name:` (both non-`None` and non-empty), then
`if p1_name == winner: eliminated.add(p2_name) elif p2_name == winner:
eliminated.add(p1_name)`. -/
def elimStep (elim : Finset String) (w : String) :
    Option String × Option String → Finset String
  | (some p1, some p2) =>
    if p1 ≠ "" ∧ p2 ≠ "" then
      if p1 = w then insert p2 elim
      else if p2 = w then insert p1 elim
      else elim
    else elim
  | _ => elim

/-- The `for match_id, winner_data in actual_results.items()` loop of
`get_eliminated_players` (`src/functions/main.py` lines 127-155), processing
the entries `todo` while feeder lookups read the full `results` mapping. -/
def elimLoop (initial : InitialEntrants) (results : ResultsMap) :
    ResultsMap → Finset String → Except String (Finset String)
  | [], elim => .ok elim
  | (matchId, winnerData) :: rest, elim =>
    match resolveOccupants initial results matchId with
    | .error e => .error e
    | .ok occ =>
      elimLoop initial results rest (elimStep elim (extractName winnerData) occ)

/-- `get_eliminated_players(initial_entrants, actual_results)`
(`src/functions/main.py` lines 125-156). -/
def get_eliminated_players (initial : InitialEntrants) (results : ResultsMap) :
    Except String (Finset String) :=
  elimLoop initial results results ∅

/-- The entrant-name universe (`src/functions/main.py` lines 57-61):
`{player[1] for draw in initial_entrants.values() for match in draw
for player in match['players']}`. -/
def drawNames (draw : List DrawMatch) : Finset String :=
  draw.foldr (fun m acc => insert m.1.2 (insert m.2.2 acc)) ∅

/-- All entrant names of both draws. -/
def allPlayersSet (initial : InitialEntrants) : Finset String :=
  drawNames initial.mens_draw ∪ drawNames initial.womens_draw

/-- `active_players = all_players_set - set(eliminated_players)`
(`src/functions/main.py` line 62). -/
def activePlayers (initial : InitialEntrants) (elim : Finset String) :
    Finset String :=
  allPlayersSet initial \ elim

/-! ### Scoring engine (`src/functions/main.py` lines 67-98) -/

/-- `POINTS_PER_ROUND = {'r32': 2, 'r16': 3, 'qf': 5, 'sf': 8, 'f': 13}`
(`src/functions/main.py` line 13; identical tables appear at
`src/generate_viewer.py` line 162 and `src/scripts/calculate_scores.py`
line 26). -/
def POINTS_PER_ROUND : List (String × Int) :=
  [("r32", 2), ("r16", 3), ("qf", 5), ("sf", 8), ("f", 13)]

/-- `POINTS_PER_ROUND.get(round_key, 0)`. -/
def pointsFor (rk : String) : Int :=
  (POINTS_PER_ROUND.lookup rk).getD 0

/-- `match_id.split('-')[1]` (`src/functions/main.py` line 79); `none` when
the key has no second dash-separated part (Python IndexError). -/
def roundKeyOf? (matchId : String) : Option String :=
  (pySplitDash matchId).get? 1

/-- One iteration of the per-pick scoring loop
(`src/functions/main.py` lines 75-90) acting on the accumulated
`(current_score, potential_score)` pair: extract the picked name, look up the
round's points, then either compare against a truthy recorded result (adding
to current on a match) or, when the result is absent or falsy, add to
potential when the picked name is still active. -/
def pickStep (results : ResultsMap) (active : Finset String)
    (acc : Int × Int) (matchId : String) (v : PickVal) :
    Except String (Int × Int) :=
  match roundKeyOf? matchId with
  | none => .error "IndexError: list index out of range"
  | some rk =>
    match results.lookup matchId with
    | some w =>
      if truthyVal w then
        if extractName v = extractName w then .ok (acc.1 + pointsFor rk, acc.2)
        else .ok acc
      else
        if extractName v ∈ active then .ok (acc.1, acc.2 + pointsFor rk)
        else .ok acc
    | none =>
      if extractName v ∈ active then .ok (acc.1, acc.2 + pointsFor rk)
      else .ok acc

/-- The `for match_id, picked_winner_data in picks.items()` loop of
`src/functions/main.py` lines 75-90. -/
def scorePicks (results : ResultsMap) (active : Finset String) :
    List (String × PickVal) → Int × Int → Except String (Int × Int)
  | [], acc => .ok acc
  | (matchId, v) :: rest, acc =>
    match pickStep results active acc matchId v with
    | .error e => .error e
    | .ok acc' => scorePicks results active rest acc'

/-- One row appended to the leaderboard (`src/functions/main.py` lines 92-98);
only the score-bearing fields are modelled. -/
structure LeaderboardEntry where
  name : String
  score : Int
  max_score : Int
  deriving DecidableEq, Repr

/-- A participant document: nickname, lock flag and picks. -/
structure Participant where
  nickname : String
  isLocked : Bool
  picks : List (String × PickVal)
  deriving DecidableEq, Repr

/-- Scoring of one locked participant (`src/functions/main.py` lines 71-98):
run the pick loop from `(0, 0)` and emit
`{"score": current, "max_score": current + potential}`. -/
def scoreParticipant (results : ResultsMap) (active : Finset String)
    (p : Participant) : Except String LeaderboardEntry :=
  match scorePicks results active p.picks (0, 0) with
  | .error e => .error e
  | .ok acc => .ok ⟨p.nickname, acc.1, acc.1 + acc.2⟩

/-! ### Ranking assigner (`src/functions/main.py` lines 100-108 and the
identical code at `src/generate_viewer.py` lines 208-218) -/

/-- A participant score record as seen by the ranking code. -/
structure Row where
  name : String
  score : Int
  deriving DecidableEq, Repr

/-- Stable descending insertion by score: the new element goes before the
first element whose score is not larger.  `foldr` of this is extensionally
Python's stable `list.sort(key=score, reverse=True)`
(`src/functions/main.py` line 100). -/
def insertDesc (p : Row) : List Row → List Row
  | [] => [p]
  | q :: qs => if q.score ≤ p.score then p :: q :: qs else q :: insertDesc p qs

/-- `leaderboard.sort(key=lambda x: x['score'], reverse=True)` as a stable
descending sort. -/
def sortByScoreDesc (l : List Row) : List Row :=
  l.foldr insertDesc []

/-- The rank-assignment walk (`src/functions/main.py` lines 102-108):
`rank = 0; last_score = -1; for i, p in enumerate(sorted): if p.score !=
last_score: rank = i + 1; last_score = p.score; p.rank = rank`. -/
def rankWalk : Nat → Nat → Int → List Row → List (Row × Nat)
  | _, _, _, [] => []
  | i, rank, last, p :: rest =>
    if p.score ≠ last then
      (p, i + 1) :: rankWalk (i + 1) (i + 1) p.score rest
    else
      (p, rank) :: rankWalk (i + 1) rank last rest

/-- Sort then assign ranks, pairing each sorted row with its rank. -/
def assignRanks (l : List Row) : List (Row × Nat) :=
  rankWalk 0 0 (-1) (sortByScoreDesc l)

/-! ### Offline viewer variant (`src/generate_viewer.py`) -/

/-- Picks/results in the offline tool are plain string-to-string maps
(values already stripped by `read_prediction_file`). -/
abbrev StrMap := List (String × String)

/-- Python `match_id in actual_results` key-containment test. -/
def keyMem (results : StrMap) (k : String) : Bool :=
  results.any (fun e => e.1 == k)

/-- One iteration of `calculate_max_score`'s loop
(`src/generate_viewer.py` lines 152-156): a pick on a match absent from
`actual_results` adds the round's points to the potential when the predicted
winner is active. -/
def gvMaxStep (results : StrMap) (active : Finset String) (pot : Int)
    (matchId predicted : String) : Except String Int :=
  if keyMem results matchId then .ok pot
  else if predicted ∈ active then
    match roundKeyOf? matchId with
    | none => .error "IndexError: list index out of range"
    | some rk => .ok (pot + pointsFor rk)
  else .ok pot

/-- The potential-points loop of `calculate_max_score`
(`src/generate_viewer.py` lines 151-156). -/
def gvPotential (results : StrMap) (active : Finset String) :
    StrMap → Int → Except String Int
  | [], pot => .ok pot
  | (matchId, predicted) :: rest, pot =>
    match gvMaxStep results active pot matchId predicted with
    | .error e => .error e
    | .ok pot' => gvPotential results active rest pot'

/-- `calculate_max_score(picks, current_score, active_players,
points_per_round, actual_results)` (`src/generate_viewer.py` lines 149-157):
`current_score + potential_points`. -/
def calculate_max_score (picks : StrMap) (currentScore : Int)
    (active : Finset String) (results : StrMap) : Except String Int :=
  match gvPotential results active picks 0 with
  | .error e => .error e
  | .ok pot => .ok (currentScore + pot)

/-! ### The other static points tables of the repository -/

/-- The legacy large-draw table of `src/legacy_scripts/score_manager.py`
lines 11-13: `{'r128':1, 'r64':1, 'r32': 2, 'r16': 3, 'qf': 5, 'sf': 8,
'f': 13}`, in declaration (round) order. -/
def scoreManagerPoints : List (String × Int) :=
  [("r128", 1), ("r64", 1), ("r32", 2), ("r16", 3), ("qf", 5), ("sf", 8),
    ("f", 13)]

/-- The doubling table of `src/wimbledon_scorer_final.py` lines 12-18:
`{'r32': 1, 'r16': 2, 'qf': 4, 'sf': 8, 'f': 16}`. -/
def wimbledonPoints : List (String × Int) :=
  [("r32", 1), ("r16", 2), ("qf", 4), ("sf", 8), ("f", 16)]

/-- Each value is strictly smaller than its successor. -/
def valuesStrictIncr : List Int → Bool
  | [] => true
  | [_] => true
  | a :: b :: rest => a < b && valuesStrictIncr (b :: rest)

/-- Each value is at most its successor. -/
def valuesNondecr : List Int → Bool
  | [] => true
  | [_] => true
  | a :: b :: rest => a ≤ b && valuesNondecr (b :: rest)

/-- A points table lists strictly increasing values in round order. -/
def strictlyIncreasingTable (t : List (String × Int)) : Prop :=
  valuesStrictIncr (t.map Prod.snd) = true

/-- A points table lists non-decreasing values in round order. -/
def nondecreasingTable (t : List (String × Int)) : Prop :=
  valuesNondecr (t.map Prod.snd) = true

/-! ### Concrete sample inputs used by the counterexamples and witnesses -/

/-- A two-category draw whose mens and womens entrants differ. -/
def sampleEntrants : InitialEntrants :=
  { mens_draw := [(("1", "M1"), ("2", "M2"))],
    womens_draw := [(("1", "W1"), ("2", "W2"))] }

/-- A mens draw of four entrants (two first-round matches), with an empty
womens draw. -/
def ghostEntrants : InitialEntrants :=
  { mens_draw := [(("1", "M1"), ("2", "M2")), (("3", "M3"), ("4", "M4"))],
    womens_draw := [] }

/-- A results feed whose recorded winner names do not appear in the draw:
both first-round winners and the round-of-16 winner are ghost names. -/
def ghostResults : ResultsMap :=
  [("mens-r32-match-0", .str "GhostA"), ("mens-r32-match-1", .str "GhostB"),
    ("mens-r16-match-0", .str "GhostA")]

end Brackets

namespace Brackets

/-! ### Helper lemmas: scoring -/

/-- Every value the points table can yield is non-negative. -/
theorem pointsFor_nonneg (rk : String) : 0 ≤ pointsFor rk := by
  simp only [pointsFor, POINTS_PER_ROUND, List.lookup]
  repeat' split <;> simp_all

/-- A single scoring step never decreases either accumulated score. -/
theorem pickStep_le {results : ResultsMap} {active : Finset String}
    {acc acc' : Int × Int} {k : String} {v : PickVal}
    (h : pickStep results active acc k v = .ok acc') :
    acc.1 ≤ acc'.1 ∧ acc.2 ≤ acc'.2 := by
  unfold pickStep at h
  split at h
  · exact absurd h (by simp)
  · rename_i rk hrk
    have hpts := pointsFor_nonneg rk
    split at h
    · split at h
      · split at h <;> cases h
        · exact ⟨by dsimp only; linarith, le_refl _⟩
        · exact ⟨le_refl _, le_refl _⟩
      · split at h <;> cases h
        · exact ⟨le_refl _, by dsimp only; linarith⟩
        · exact ⟨le_refl _, le_refl _⟩
    · split at h <;> cases h
      · exact ⟨le_refl _, by dsimp only; linarith⟩
      · exact ⟨le_refl _, le_refl _⟩

/-- The pick loop never decreases either accumulated score. -/
theorem scorePicks_le {results : ResultsMap} {active : Finset String} :
    ∀ {l : List (String × PickVal)} {acc acc' : Int × Int},
    scorePicks results active l acc = .ok acc' →
    acc.1 ≤ acc'.1 ∧ acc.2 ≤ acc'.2 := by
  intro l
  induction l with
  | nil => intro acc acc' h; cases h; exact ⟨le_refl _, le_refl _⟩
  | cons kv rest ih =>
    intro acc acc' h
    unfold scorePicks at h
    split at h
    · exact absurd h (by simp)
    · have h1 := pickStep_le (by assumption)
      have h2 := ih h
      exact ⟨h1.1.trans h2.1, h1.2.trans h2.2⟩

/-- A single potential-score step of the offline tool never decreases the
accumulated potential. -/
theorem gvMaxStep_le {results : StrMap} {active : Finset String}
    {pot pot' : Int} {k pw : String}
    (h : gvMaxStep results active pot k pw = .ok pot') : pot ≤ pot' := by
  unfold gvMaxStep at h
  split at h
  · cases h; exact le_refl _
  · split at h
    · split at h
      · exact absurd h (by simp)
      · cases h
        have := pointsFor_nonneg (by assumption)
        linarith
    · cases h; exact le_refl _

/-- The offline potential loop never decreases the accumulated potential. -/
theorem gvPotential_le {results : StrMap} {active : Finset String} :
    ∀ {l : StrMap} {pot pot' : Int},
    gvPotential results active l pot = .ok pot' → pot ≤ pot' := by
  intro l
  induction l with
  | nil => intro pot pot' h; cases h; exact le_refl _
  | cons kv rest ih =>
    intro pot pot' h
    unfold gvPotential at h
    split at h
    · exact absurd h (by simp)
    · exact (gvMaxStep_le (by assumption)).trans (ih h)

/-! ### Claim theorems: scoring -/

/-- Claim C2 (amended): for every pick on a match key that `actual_results`
maps to a truthy (non-empty) value, the pick adds exactly the round's point
value to the current score iff the normalized picked name equals the
normalized recorded winner name ([seed, name] pairs reduced to the name, then
whitespace-trimmed, on both sides), and otherwise adds 0; such a pick never
changes the potential score. -/
theorem c2_decided_pick_normalized_scoring (results : ResultsMap)
    (active : Finset String) (acc : Int × Int) (k : String) (v w : PickVal)
    (rk : String) (hrk : roundKeyOf? k = some rk)
    (hw : results.lookup k = some w) (ht : truthyVal w = true) :
    pickStep results active acc k v =
      .ok (acc.1 + (if extractName v = extractName w then pointsFor rk else 0),
        acc.2) := by
  unfold pickStep
  rw [hrk, hw]
  dsimp only
  rw [if_pos ht]
  split <;> simp

/-- Witness for `c2_decided_pick_normalized_scoring` at a concrete input. -/
theorem c2_decided_pick_normalized_scoring_witness :
    pickStep [("mens-r32-match-0", .str " M1 ")] ∅ (0, 0) "mens-r32-match-0"
        (.pair "1" "M1") = .ok (0 + (if "M1" = "M1" then 2 else 0), 0) := by
  have h := c2_decided_pick_normalized_scoring
    [("mens-r32-match-0", .str " M1 ")] ∅ (0, 0) "mens-r32-match-0"
    (.pair "1" "M1") (.str " M1 ") "r32" (by decide) (by decide) (by decide)
  simpa using h

/-- Counterexample to claim C2 as stated: `actual_results` contains the key
`mens-r32-match-0` (with recorded value `""`), so the claim requires the pick
to contribute 0 to the potential score; the engine instead treats the falsy
value as "no result" and adds the round's 2 points to the potential. -/
theorem c2_empty_result_counterexample :
    pickStep [("mens-r32-match-0", .str "")] {"X"} (0, 0) "mens-r32-match-0"
        (.str "X") = .ok (0, 2) ∧ (2 : Int) ≠ 0 := by
  constructor
  · decide
  · decide

/-- Claim C6: a pick on a match key with no recorded result adds the round's
point value to the potential score iff the predicted (normalized) winner is
active, else adds 0, and never changes the current score; the reported max
score is current plus potential (in both the live engine and the offline
tool); an empty picks map contributes nothing. -/
theorem c6_undecided_pick_potential :
    (∀ (results : ResultsMap) (active : Finset String) (acc : Int × Int)
        (k : String) (v : PickVal) (rk : String), roundKeyOf? k = some rk →
      results.lookup k = none →
      pickStep results active acc k v =
        .ok (acc.1,
          acc.2 + (if extractName v ∈ active then pointsFor rk else 0))) ∧
    (∀ (results : ResultsMap) (active : Finset String) (p : Participant)
        (e : LeaderboardEntry), scoreParticipant results active p = .ok e →
      ∃ c pot, scorePicks results active p.picks (0, 0) = .ok (c, pot) ∧
        e.score = c ∧ e.max_score = c + pot) ∧
    (∀ (results : ResultsMap) (active : Finset String) (acc : Int × Int),
      scorePicks results active [] acc = .ok acc) ∧
    (∀ (results : StrMap) (active : Finset String) (pot : Int)
        (k pw : String) (rk : String), roundKeyOf? k = some rk →
      keyMem results k = false →
      gvMaxStep results active pot k pw =
        .ok (pot + (if pw ∈ active then pointsFor rk else 0))) ∧
    (∀ (picks : StrMap) (cur : Int) (active : Finset String)
        (results : StrMap) (pot : Int),
      gvPotential results active picks 0 = .ok pot →
      calculate_max_score picks cur active results = .ok (cur + pot)) := by
  refine ⟨?_, ?_, ?_, ?_, ?_⟩
  · intro results active acc k v rk hrk hnone
    unfold pickStep
    rw [hrk, hnone]
    dsimp only
    split <;> simp
  · intro results active p e h
    unfold scoreParticipant at h
    split at h
    · exact absurd h (by simp)
    · rename_i acc heq
      cases h
      exact ⟨acc.1, acc.2, heq, rfl, rfl⟩
  · intro results active acc; rfl
  · intro results active pot k pw rk hrk hmem
    unfold gvMaxStep
    rw [if_neg (by simp [hmem]), hrk]
    split <;> simp_all
  · intro picks cur active results pot h
    unfold calculate_max_score
    rw [h]

/-- Witness for `c6_undecided_pick_potential` at a concrete input. -/
theorem c6_undecided_pick_potential_witness :
    pickStep [] {"X"} (0, 0) "mens-sf-match-0" (.str "X")
      = .ok (0, 0 + (if "X" ∈ ({"X"} : Finset String) then 8 else 0)) := by
  have h := c6_undecided_pick_potential.1 [] {"X"} (0, 0) "mens-sf-match-0"
    (.str "X") "sf" (by decide) (by decide)
  simpa using h

/-- Claim C9: every participant record the engine outputs satisfies
`0 ≤ current ≤ max`; likewise the offline tool's max score never drops below
the current score it is given, when that is non-negative. -/
theorem c9_score_bounds :
    (∀ (results : ResultsMap) (active : Finset String) (p : Participant)
        (e : LeaderboardEntry), scoreParticipant results active p = .ok e →
      0 ≤ e.score ∧ e.score ≤ e.max_score) ∧
    (∀ (picks : StrMap) (cur : Int) (active : Finset String)
        (results : StrMap) (m : Int), 0 ≤ cur →
      calculate_max_score picks cur active results = .ok m → cur ≤ m) := by
  constructor
  · intro results active p e h
    unfold scoreParticipant at h
    split at h
    · exact absurd h (by simp)
    · rename_i acc heq
      cases h
      have hle := scorePicks_le heq
      simp only at hle ⊢
      constructor
      · linarith [hle.1]
      · linarith [hle.2]
  · intro picks cur active results m _ h
    unfold calculate_max_score at h
    split at h
    · exact absurd h (by simp)
    · cases h
      have := gvPotential_le (by assumption)
      linarith

/-- Witness for `c9_score_bounds` at a concrete input. -/
theorem c9_score_bounds_witness :
    0 ≤ (0 : Int) ∧ (0 : Int) ≤ 13 ∧ (5 : Int) ≤ 5 := by
  have h1 := c9_score_bounds.1 [] {"M1"}
    ⟨"alice", true, [("mens-f-match-0", .str "M1")]⟩ ⟨"alice", 0, 13⟩
    (by decide)
  have h2 := c9_score_bounds.2 [] 5 ∅ [] 5 (by decide) (by decide)
  exact ⟨h1.1, h1.2, h2⟩

/-- Claim C7 (amended): every static points-per-round table in the repository
is non-decreasing in round order, and all of them are strictly increasing
except the legacy large-draw table of `src/legacy_scripts/score_manager.py`,
which assigns the same value 1 to both `r128` and `r64` (it is strictly
increasing from `r64` onwards). -/
theorem c7_tables_monotone :
    strictlyIncreasingTable POINTS_PER_ROUND ∧
    strictlyIncreasingTable wimbledonPoints ∧
    nondecreasingTable scoreManagerPoints ∧
    strictlyIncreasingTable (scoreManagerPoints.drop 1) := by
  refine ⟨?_, ?_, ?_, ?_⟩ <;>
    (simp only [strictlyIncreasingTable, nondecreasingTable]; decide)

/-- Counterexample to claim C7 as stated: the points table of
`src/legacy_scripts/score_manager.py` is not strictly increasing — its first
two consecutive rounds `r128` and `r64` both score 1 point. -/
theorem c7_strict_increase_counterexample :
    ¬ strictlyIncreasingTable scoreManagerPoints ∧
    scoreManagerPoints.lookup "r128" = some 1 ∧
    scoreManagerPoints.lookup "r64" = some 1 := by
  refine ⟨?_, ?_, ?_⟩
  · simp only [strictlyIncreasingTable]; decide
  · decide
  · decide

end Brackets


namespace Brackets

/-! ### Helper lemmas: elimination inference -/

/-- Membership in the per-match elimination update. -/
theorem mem_elimStep {elim : Finset String} {w x : String} :
    ∀ {occ : Option String × Option String},
    x ∈ elimStep elim w occ ↔ x ∈ elim ∨ ∃ p1 p2,
      occ = (some p1, some p2) ∧ p1 ≠ "" ∧ p2 ≠ "" ∧
      ((w = p1 ∧ x = p2) ∨ (w = p2 ∧ x = p1))
  | (none, none) => by simp [elimStep]
  | (none, some _) => by simp [elimStep]
  | (some _, none) => by simp [elimStep]
  | (some p1, some p2) => by
    simp only [elimStep, Prod.mk.injEq, Option.some.injEq]
    by_cases h1 : p1 ≠ "" ∧ p2 ≠ ""
    · rw [if_pos h1]
      by_cases h2 : p1 = w
      · rw [if_pos h2]
        simp only [Finset.mem_insert]
        constructor
        · rintro (hx | hx)
          · exact Or.inr ⟨p1, p2, ⟨rfl, rfl⟩, h1.1, h1.2,
              Or.inl ⟨h2.symm, hx⟩⟩
          · exact Or.inl hx
        · rintro (hx | ⟨a, b, ⟨rfl, rfl⟩, _, _, (⟨_, hx⟩ | ⟨hw2, hx⟩)⟩)
          · exact Or.inr hx
          · exact Or.inl hx
          · exact Or.inl (hx.trans (h2.trans hw2))
      · rw [if_neg h2]
        by_cases h3 : p2 = w
        · rw [if_pos h3]
          simp only [Finset.mem_insert]
          constructor
          · rintro (hx | hx)
            · exact Or.inr ⟨p1, p2, ⟨rfl, rfl⟩, h1.1, h1.2,
                Or.inr ⟨h3.symm, hx⟩⟩
            · exact Or.inl hx
          · rintro (hx | ⟨a, b, ⟨rfl, rfl⟩, _, _, (⟨hw, _⟩ | ⟨_, hx⟩)⟩)
            · exact Or.inr hx
            · exact absurd hw.symm h2
            · exact Or.inl hx
        · rw [if_neg h3]
          constructor
          · exact Or.inl
          · rintro (hx | ⟨a, b, ⟨rfl, rfl⟩, _, _, (⟨hw, _⟩ | ⟨hw, _⟩)⟩)
            · exact hx
            · exact absurd hw.symm h2
            · exact absurd hw.symm h3
    · rw [if_neg h1]
      constructor
      · exact Or.inl
      · rintro (hx | ⟨a, b, ⟨rfl, rfl⟩, hne1, hne2, _⟩)
        · exact hx
        · exact absurd ⟨hne1, hne2⟩ h1

/-- Membership characterization of the elimination loop: an entrant is
collected iff it was already in the accumulator or some processed results
entry resolves to two known occupants, one of which is the recorded winner,
the entrant being the other. -/
theorem mem_elimLoop {initial : InitialEntrants} {results : ResultsMap} :
    ∀ {todo : ResultsMap} {acc S : Finset String},
    elimLoop initial results todo acc = .ok S →
    ∀ x, x ∈ S ↔ x ∈ acc ∨ ∃ k v, (k, v) ∈ todo ∧ ∃ p1 p2,
      resolveOccupants initial results k = .ok (some p1, some p2) ∧
      p1 ≠ "" ∧ p2 ≠ "" ∧
      ((extractName v = p1 ∧ x = p2) ∨ (extractName v = p2 ∧ x = p1)) := by
  intro todo
  induction todo with
  | nil =>
    intro acc S h x
    cases h
    simp
  | cons kv rest ih =>
    intro acc S h x
    obtain ⟨k, v⟩ := kv
    unfold elimLoop at h
    split at h
    · exact absurd h (by simp)
    · rename_i occ heq
      rw [ih h x, mem_elimStep]
      constructor
      · rintro ((hacc | ⟨p1, p2, hocc, h1, h2, hw⟩) |
          ⟨k2, v2, hmem, p1, p2, hres, h1, h2, hw⟩)
        · exact Or.inl hacc
        · exact Or.inr ⟨k, v, List.mem_cons_self (k, v) rest, p1, p2,
            (by rw [heq, hocc]), h1, h2, hw⟩
        · exact Or.inr ⟨k2, v2, List.mem_cons_of_mem _ hmem, p1, p2, hres,
            h1, h2, hw⟩
      · rintro (hacc | ⟨k2, v2, hmem, p1, p2, hres, h1, h2, hw⟩)
        · exact Or.inl (Or.inl hacc)
        · rcases List.mem_cons.mp hmem with heq2 | hmem2
          · cases heq2
            rw [heq] at hres
            exact Or.inl (Or.inr ⟨p1, p2, (by injection hres), h1, h2, hw⟩)
          · exact Or.inr ⟨k2, v2, hmem2, p1, p2, hres, h1, h2, hw⟩

/-- The elimination loop succeeds as soon as every processed key resolves
without raising, whatever the resolved occupants are. -/
theorem elimLoop_isOk {initial : InitialEntrants} {results : ResultsMap} :
    ∀ {todo : ResultsMap} (acc : Finset String),
    (∀ k v, (k, v) ∈ todo →
      ∃ occ, resolveOccupants initial results k = .ok occ) →
    ∃ S, elimLoop initial results todo acc = .ok S := by
  intro todo
  induction todo with
  | nil => exact fun acc _ => ⟨acc, rfl⟩
  | cons kv rest ih =>
    intro acc hall
    obtain ⟨k, v⟩ := kv
    obtain ⟨occ, hocc⟩ := hall k v (List.mem_cons_self (k, v) rest)
    unfold elimLoop
    rw [hocc]
    exact ih _ (fun k2 v2 hm => hall k2 v2 (List.mem_cons_of_mem _ hm))

/-- Membership characterization of `get_eliminated_players`. -/
theorem mem_get_eliminated {initial : InitialEntrants} {results : ResultsMap}
    {S : Finset String} (h : get_eliminated_players initial results = .ok S)
    (x : String) :
    x ∈ S ↔ ∃ k v, (k, v) ∈ results ∧ ∃ p1 p2,
      resolveOccupants initial results k = .ok (some p1, some p2) ∧
      p1 ≠ "" ∧ p2 ≠ "" ∧
      ((extractName v = p1 ∧ x = p2) ∨ (extractName v = p2 ∧ x = p1)) := by
  unfold get_eliminated_players at h
  simpa using mem_elimLoop h x

/-! ### Helper lemmas: association-list lookups -/

/-- A successful lookup pair is a member of the association list. -/
theorem lookup_mem {α β : Type} [BEq α] [LawfulBEq α] {l : List (α × β)}
    {k : α} {v : β} (h : l.lookup k = some v) : (k, v) ∈ l := by
  induction l with
  | nil => simp [List.lookup] at h
  | cons p rest ih =>
    obtain ⟨a, b⟩ := p
    rw [List.lookup] at h
    cases hk : k == a with
    | true =>
      rw [hk] at h
      cases h
      have : k = a := eq_of_beq hk
      subst this
      exact List.mem_cons_self _ _
    | false =>
      rw [hk] at h
      exact List.mem_cons_of_mem _ (ih h)

/-- With duplicate-free keys (a Python dict), membership determines lookup. -/
theorem lookup_of_mem_nodup {α β : Type} [BEq α] [LawfulBEq α]
    {l : List (α × β)} (hnd : (l.map Prod.fst).Nodup) {k : α} {v : β}
    (h : (k, v) ∈ l) : l.lookup k = some v := by
  induction l with
  | nil => simp at h
  | cons p rest ih =>
    obtain ⟨a, b⟩ := p
    rw [List.map_cons, List.nodup_cons] at hnd
    rw [List.lookup]
    rcases List.mem_cons.mp h with heq | hmem
    · cases heq
      rw [beq_self_eq_true]
    · cases hk : k == a with
      | true =>
        have : k = a := eq_of_beq hk
        subst this
        exact absurd (List.mem_map_of_mem Prod.fst hmem) hnd.1
      | false => exact ih hnd.2 hmem

/-- A lookup that succeeds in a prefix still succeeds after appending. -/
theorem lookup_append_of_some {α β : Type} [BEq α] {l1 l2 : List (α × β)}
    {k : α} {v : β} (h : l1.lookup k = some v) :
    (l1 ++ l2).lookup k = some v := by
  induction l1 with
  | nil => simp [List.lookup] at h
  | cons p rest ih =>
    obtain ⟨a, b⟩ := p
    rw [List.lookup] at h
    rw [List.cons_append, List.lookup]
    cases hk : k == a with
    | true => rw [hk] at h; rw [h]
    | false => rw [hk] at h; exact ih h

/-! ### Helper lemmas: monotonicity of resolution -/

/-- Feeder resolution is monotone in the results mapping. -/
theorem feederName_mono {R Rp : ResultsMap}
    (hsub : ∀ k d, R.lookup k = some d → Rp.lookup k = some d) {id : String}
    {n : String} (h : feederName R id = some n) : feederName Rp id = some n := by
  unfold feederName at h ⊢
  cases hR : R.lookup id with
  | none => rw [hR] at h; simp at h
  | some d =>
    rw [hR] at h
    rw [hsub id d hR]
    exact h

/-- Occupant resolution is monotone in the results mapping whenever both
occupants are resolved. -/
theorem resolveCore_mono {initial : InitialEntrants} {R Rp : ResultsMap}
    (hsub : ∀ k d, R.lookup k = some d → Rp.lookup k = some d)
    {useMens : Bool} {cat rk : String} {idx : Nat} {p1 p2 : String}
    (h : resolveCore initial R useMens cat rk idx = .ok (some p1, some p2)) :
    resolveCore initial Rp useMens cat rk idx = .ok (some p1, some p2) := by
  unfold resolveCore at h ⊢
  by_cases hrk : rk = "r32"
  · rw [if_pos hrk] at h ⊢
    exact h
  · rw [if_neg hrk] at h ⊢
    cases hfind : ROUNDS.findIdx? (fun r => r == rk) with
    | none => rw [hfind] at h; simp at h
    | some ri =>
      rw [hfind] at h
      dsimp only at h ⊢
      simp only [Except.ok.injEq, Prod.mk.injEq] at h
      obtain ⟨ha, hb⟩ := h
      rw [feederName_mono hsub ha, feederName_mono hsub hb]

/-- Full resolution is monotone in the results mapping whenever both
occupants are resolved. -/
theorem resolveOccupants_mono {initial : InitialEntrants} {R Rp : ResultsMap}
    (hsub : ∀ k d, R.lookup k = some d → Rp.lookup k = some d)
    {mid : String} {p1 p2 : String}
    (h : resolveOccupants initial R mid = .ok (some p1, some p2)) :
    resolveOccupants initial Rp mid = .ok (some p1, some p2) := by
  unfold resolveOccupants at h ⊢
  cases hp : parseMatchId mid with
  | error e => rw [hp] at h; simp at h
  | ok t =>
    rw [hp] at h
    obtain ⟨cat, rk, idx⟩ := t
    dsimp only at h ⊢
    exact resolveCore_mono hsub h

end Brackets

namespace Brackets

/-! ### Claim theorems: elimination inference -/

/-- Claim C1 (code bug): evaluation of the engine at a womens first-round
result.  Because `'mens'` is a substring of `'womens'`, the category test
`'mens' in match_id` selects `mens_draw` for the key `womens-r32-match-0`,
so the match resolves to the mens pair `(M1, M2)` instead of the womens pair
`(W1, W2)`; the recorded winner `W1` then matches neither occupant and no
player is eliminated, although the claim (and the spec) require `W2` to be
eliminated from the womens draw. -/
theorem c1_cross_category_resolution :
    pyIn "mens" "womens-r32-match-0" = true ∧
    resolveOccupants sampleEntrants [("womens-r32-match-0", .str "W1")]
      "womens-r32-match-0" = .ok (some "M1", some "M2") ∧
    get_eliminated_players sampleEntrants [("womens-r32-match-0", .str "W1")]
      = .ok ∅ := by
  refine ⟨?_, ?_, ?_⟩ <;> decide

/-- Claim C3: the eliminated set is exactly the set of players `x` such that
some entry of `actual_results` resolves to two known occupants, the recorded
winner equals one of them, and `x` is the other; and a results feed in which
every key resolves (however incompletely) is processed without error —
unresolved or winner-mismatched matches are skipped silently. -/
theorem c3_eliminated_set_characterization :
    (∀ (initial : InitialEntrants) (results : ResultsMap) (S : Finset String),
      get_eliminated_players initial results = .ok S →
      ∀ x, x ∈ S ↔ ∃ k v, (k, v) ∈ results ∧ ∃ p1 p2,
        resolveOccupants initial results k = .ok (some p1, some p2) ∧
        p1 ≠ "" ∧ p2 ≠ "" ∧
        ((extractName v = p1 ∧ x = p2) ∨ (extractName v = p2 ∧ x = p1))) ∧
    (∀ (initial : InitialEntrants) (results : ResultsMap),
      (∀ k v, (k, v) ∈ results →
        ∃ occ, resolveOccupants initial results k = .ok occ) →
      ∃ S, get_eliminated_players initial results = .ok S) := by
  constructor
  · intro initial results S h x
    exact mem_get_eliminated h x
  · intro initial results hall
    exact elimLoop_isOk ∅ hall

/-- Witness for `c3_eliminated_set_characterization` at a concrete input:
with the single recorded result `mens-r32-match-0 → M1`, the loser `M2` is in
the eliminated set, and the whole computation succeeds. -/
theorem c3_eliminated_set_characterization_witness :
    ("M2" ∈ ({"M2"} : Finset String)) ∧
    (∃ S, get_eliminated_players sampleEntrants
      [("mens-r32-match-0", .str "M1")] = .ok S) := by
  constructor
  · exact (c3_eliminated_set_characterization.1 sampleEntrants
      [("mens-r32-match-0", .str "M1")] {"M2"} (by decide) "M2").mpr
      ⟨"mens-r32-match-0", .str "M1", by decide, "M1", "M2", by decide,
        by decide, by decide, Or.inl ⟨by decide, rfl⟩⟩
  · refine c3_eliminated_set_characterization.2 sampleEntrants
      [("mens-r32-match-0", .str "M1")] ?_
    intro k v hm
    rw [List.mem_singleton] at hm
    cases hm
    exact ⟨(some "M1", some "M2"), by decide⟩

/-- Claim C5: elimination inference is deterministic (recomputing on the same
inputs gives the same set) and monotone: when the duplicate-free results
mapping `R` is extended to a mapping `Rp` that agrees with it on all of its
keys, the eliminated set can only grow. -/
theorem c5_elimination_idempotent_monotone :
    (∀ (initial : InitialEntrants) (results : ResultsMap),
      get_eliminated_players initial results =
        get_eliminated_players initial results) ∧
    (∀ (initial : InitialEntrants) (R Rp : ResultsMap) (S Sp : Finset String),
      (R.map Prod.fst).Nodup →
      (∀ k v, R.lookup k = some v → Rp.lookup k = some v) →
      get_eliminated_players initial R = .ok S →
      get_eliminated_players initial Rp = .ok Sp →
      S ⊆ Sp) := by
  constructor
  · intro initial results
    rfl
  · intro initial R Rp S Sp hnd hsub hR hRp x hx
    rw [mem_get_eliminated hR] at hx
    obtain ⟨k, v, hmem, p1, p2, hres, h1, h2, hw⟩ := hx
    have hlk : R.lookup k = some v := lookup_of_mem_nodup hnd hmem
    exact (mem_get_eliminated hRp x).mpr
      ⟨k, v, lookup_mem (hsub k v hlk), p1, p2,
        resolveOccupants_mono hsub hres, h1, h2, hw⟩

/-- Witness for `c5_elimination_idempotent_monotone` at a concrete input:
extending a one-result feed with a second first-round result grows the
eliminated set from the first loser alone to both losers. -/
theorem c5_elimination_idempotent_monotone_witness :
    ({"M2"} : Finset String) ⊆ {"M2", "M4"} := by
  refine c5_elimination_idempotent_monotone.2 ghostEntrants
    [("mens-r32-match-0", .str "M1")]
    ([("mens-r32-match-0", .str "M1")] ++ [("mens-r32-match-1", .str "M3")])
    {"M2"} {"M2", "M4"} (by decide) ?_ (by decide) (by decide)
  intro k v h
  exact lookup_append_of_some h

/-- Claim C8 (amended): during match resolution, an unknown round key raises,
and a first-round (`r32`) match index beyond the draw raises; but for a later
round an out-of-range match index raises nothing — the occupants are resolved
by feeder lookups and the match is skipped when they are absent. -/
theorem c8_resolution_errors :
    (∀ (initial : InitialEntrants) (results : ResultsMap) (useMens : Bool)
        (cat rk : String) (idx : Nat), rk ∉ ROUNDS →
      ∃ e, resolveCore initial results useMens cat rk idx = .error e) ∧
    (∀ (initial : InitialEntrants) (results : ResultsMap) (useMens : Bool)
        (cat : String) (idx : Nat),
      (if useMens then initial.mens_draw else initial.womens_draw).length ≤
        idx →
      ∃ e, resolveCore initial results useMens cat "r32" idx = .error e) := by
  constructor
  · intro initial results useMens cat rk idx h
    have hne : ¬rk = "r32" := fun he => h (he ▸ (by decide : "r32" ∈ ROUNDS))
    have hfind : ROUNDS.findIdx? (fun r => r == rk) = none := by
      have : ∀ r ∈ ROUNDS, ¬(r == rk) = true := by
        intro r hr hb
        exact h ((eq_of_beq hb) ▸ hr)
      rw [List.findIdx?_eq_none_iff]
      intro r hr
      exact Bool.not_eq_true _ ▸ (by simpa using this r hr)
    unfold resolveCore
    rw [if_neg hne, hfind]
    exact ⟨_, rfl⟩
  · intro initial results useMens cat idx h
    have hnone :
        (if useMens then initial.mens_draw else initial.womens_draw).get? idx
          = none := List.get?_eq_none.mpr h
    unfold resolveCore
    rw [if_pos rfl]
    dsimp only
    rw [hnone]
    exact ⟨_, rfl⟩

/-- Witness for `c8_resolution_errors` at concrete inputs: the round key
`r64` is not in the five-round topology, and first-round index 7 is outside
the one-match sample draw. -/
theorem c8_resolution_errors_witness :
    (∃ e, resolveCore sampleEntrants [] true "mens" "r64" 0 = .error e) ∧
    (∃ e, resolveCore sampleEntrants [] true "mens" "r32" 7 = .error e) := by
  constructor
  · exact c8_resolution_errors.1 sampleEntrants [] true "mens" "r64" 0
      (by decide)
  · exact c8_resolution_errors.2 sampleEntrants [] true "mens" 7 (by decide)

/-- Counterexample to claim C8 as stated: for the later-round key
`mens-f-match-5` the match index 5 is out of range (the final has a single
match), yet the resolution silently returns `(None, None)` instead of
raising, and elimination inference skips the entry without error. -/
theorem c8_silent_later_round_counterexample :
    resolveOccupants sampleEntrants [("mens-f-match-5", .str "X")]
      "mens-f-match-5" = .ok (none, none) ∧
    get_eliminated_players sampleEntrants [("mens-f-match-5", .str "X")]
      = .ok ∅ := by
  constructor <;> decide

/-- Claim C10: whatever the results feed contains, the active-player set is
obtained by subtracting the eliminated set from the draw's entrant universe,
hence is always a subset of that universe — even though the eliminated set
itself may contain names that are not in the draw, as the ghost feed shows. -/
theorem c10_active_subset_of_draw :
    (∀ (initial : InitialEntrants) (results : ResultsMap) (S : Finset String),
      get_eliminated_players initial results = .ok S →
      activePlayers initial S ⊆ allPlayersSet initial) ∧
    (get_eliminated_players ghostEntrants ghostResults = .ok {"GhostB"} ∧
      "GhostB" ∉ allPlayersSet ghostEntrants) := by
  refine ⟨?_, ?_, ?_⟩
  · intro initial results S _
    exact Finset.sdiff_subset
  · decide
  · decide

/-- Witness for `c10_active_subset_of_draw` at a concrete input. -/
theorem c10_active_subset_of_draw_witness :
    activePlayers ghostEntrants {"GhostB"} ⊆ allPlayersSet ghostEntrants :=
  c10_active_subset_of_draw.1 ghostEntrants ghostResults {"GhostB"}
    (by decide)

end Brackets

namespace Brackets

/-! ### Helper lemmas: stable descending sort -/

/-- Stable descending insertion is a permutation with the new head. -/
theorem insertDesc_perm (p : Row) :
    ∀ l : List Row, List.Perm (insertDesc p l) (p :: l)
  | [] => List.Perm.refl _
  | q :: qs => by
    unfold insertDesc
    by_cases hq : q.score ≤ p.score
    · rw [if_pos hq]
    · rw [if_neg hq]
      exact ((insertDesc_perm p qs).cons q).trans (List.Perm.swap p q qs)

/-- Stable descending insertion preserves descending sortedness. -/
theorem insertDesc_sorted {p : Row} {l : List Row}
    (h : l.Pairwise (fun a b => b.score ≤ a.score)) :
    (insertDesc p l).Pairwise (fun a b => b.score ≤ a.score) := by
  induction l with
  | nil => simp [insertDesc]
  | cons q qs ih =>
    rw [List.pairwise_cons] at h
    unfold insertDesc
    by_cases hq : q.score ≤ p.score
    · rw [if_pos hq]
      rw [List.pairwise_cons]
      refine ⟨?_, List.pairwise_cons.mpr h⟩
      intro b hb
      rcases List.mem_cons.mp hb with rfl | hb2
      · exact hq
      · exact (h.1 b hb2).trans hq
    · rw [if_neg hq]
      rw [List.pairwise_cons]
      constructor
      · intro b hb
        rcases List.mem_cons.mp ((insertDesc_perm p qs).mem_iff.mp hb) with
          rfl | hb2
        · exact le_of_lt (lt_of_not_le hq)
        · exact h.1 b hb2
      · exact ih h.2

/-- Stability of descending insertion: filtering at any single score value
commutes with the insertion. -/
theorem filter_insertDesc (s : Int) (p : Row) (l : List Row) :
    (insertDesc p l).filter (fun q => q.score == s) =
      if p.score == s then p :: l.filter (fun q => q.score == s)
      else l.filter (fun q => q.score == s) := by
  induction l with
  | nil =>
    cases hps : (p.score == s) <;>
      simp [insertDesc, List.filter_cons, hps]
  | cons q qs ih =>
    unfold insertDesc
    by_cases hq : q.score ≤ p.score
    · rw [if_pos hq]
      cases hps : (p.score == s) <;> simp [List.filter_cons, hps]
    · rw [if_neg hq]
      cases hps : (p.score == s)
      · rw [List.filter_cons, List.filter_cons]
        cases hqs : (q.score == s) <;> simp [hqs, ih, hps]
      · have hq2 : (q.score == s) = false := by
          rw [beq_eq_false_iff_ne]
          intro he
          exact hq (le_of_eq (he.trans (eq_of_beq hps).symm))
        rw [List.filter_cons, hq2, List.filter_cons, hq2]
        simpa [hps] using ih

/-- The stable descending sort permutes its input. -/
theorem sortByScoreDesc_perm (l : List Row) :
    List.Perm (sortByScoreDesc l) l := by
  induction l with
  | nil => exact List.Perm.refl _
  | cons p rest ih => exact (insertDesc_perm p _).trans (ih.cons p)

/-- The stable descending sort sorts descendingly by score. -/
theorem sortByScoreDesc_sorted (l : List Row) :
    (sortByScoreDesc l).Pairwise (fun a b => b.score ≤ a.score) := by
  induction l with
  | nil => simp [sortByScoreDesc]
  | cons p rest ih => exact insertDesc_sorted ih

/-- Stability of the sort: the sublist of rows at any fixed score is
unchanged, i.e. ties keep their input order. -/
theorem sortByScoreDesc_filter (s : Int) (l : List Row) :
    (sortByScoreDesc l).filter (fun q => q.score == s) =
      l.filter (fun q => q.score == s) := by
  induction l with
  | nil => rfl
  | cons p rest ih =>
    have hstep :
        sortByScoreDesc (p :: rest) = insertDesc p (sortByScoreDesc rest) :=
      rfl
    rw [hstep, filter_insertDesc]
    cases hps : (p.score == s) <;> simp [List.filter_cons, hps, ih]

/-- `findIdx` over an append whose first part contains no match. -/
theorem findIdx_append_of_false {pr : Row → Bool} :
    ∀ {P : List Row} (M : List Row), (∀ x ∈ P, pr x = false) →
    (P ++ M).findIdx pr = P.length + M.findIdx pr := by
  intro P
  induction P with
  | nil => intro M _; simp
  | cons a P ih =>
    intro M h
    rw [List.cons_append, List.findIdx_cons, h a (List.mem_cons_self a P),
      ih M (fun x hx => h x (List.mem_cons_of_mem _ hx))]
    simp only [List.length_cons, Bool.cond_false]
    omega

/-- Specification of the rank-assignment walk over a suffix `l` of the
descending-sorted list `S = P ++ l`, with the loop state `(rank, last)`
satisfying the walk invariant: each remaining row is paired with one plus the
index of the first row of `S` sharing its score. -/
theorem rankWalk_spec {S : List Row}
    (hsort : S.Pairwise (fun a b => b.score ≤ a.score))
    (hpos : ∀ r ∈ S, 0 ≤ r.score) :
    ∀ (l P : List Row) (rank : Nat) (last : Int),
    S = P ++ l →
    ((P = [] ∧ rank = 0 ∧ last = -1) ∨
      (∃ q, q ∈ P ∧ last = q.score ∧ (∀ x ∈ P, last ≤ x.score) ∧
        rank = S.findIdx (fun x => x.score == last) + 1)) →
    ∀ i, (rankWalk P.length rank last l).get? i =
      (l.get? i).map (fun row =>
        (row, S.findIdx (fun x => x.score == row.score) + 1)) := by
  intro l
  induction l with
  | nil => intro P rank last _ _ i; cases i <;> rfl
  | cons p rest ih =>
    intro P rank last hSP hinv i
    have hcross : ∀ x ∈ P, ∀ y ∈ p :: rest, y.score ≤ x.score :=
      (List.pairwise_append.mp (hSP ▸ hsort)).2.2
    have hlen : (P ++ [p]).length = P.length + 1 := by
      rw [List.length_append, List.length_singleton]
    by_cases hne : p.score ≠ last
    · have hfalse : ∀ x ∈ P, (fun x => x.score == p.score) x = false := by
        intro x hx
        rcases hinv with ⟨hP, _, _⟩ | ⟨q, hqP, hlast, hall, _⟩
        · rw [hP] at hx; simp at hx
        · have h1 : p.score ≤ q.score :=
            hcross q hqP p (List.mem_cons_self p rest)
          have h2 : p.score < last := lt_of_le_of_ne (hlast ▸ h1) hne
          have h3 : last ≤ x.score := hall x hx
          simp only [beq_eq_false_iff_ne]
          intro he
          exact absurd (he ▸ (h2.trans_le h3)) (lt_irrefl _)
      have hfi : S.findIdx (fun x => x.score == p.score) = P.length := by
        rw [hSP, findIdx_append_of_false _ hfalse, List.findIdx_cons,
          beq_self_eq_true]
        simp
      have hallp : ∀ x ∈ P ++ [p], p.score ≤ x.score := by
        intro x hx
        rcases List.mem_append.mp hx with hx2 | hx2
        · exact hcross x hx2 p (List.mem_cons_self p rest)
        · rw [List.mem_singleton.mp hx2]
      have hrec := ih (P ++ [p]) (P.length + 1) p.score
        (by rw [hSP, List.append_assoc]; rfl)
        (Or.inr ⟨p, List.mem_append_right P (List.mem_singleton_self p),
          rfl, hallp, by rw [hfi]⟩)
      rw [hlen] at hrec
      unfold rankWalk
      rw [if_pos hne]
      cases i with
      | zero => simp [hfi]
      | succ j =>
        rw [List.get?_cons_succ, List.get?_cons_succ]
        exact hrec j
    · rw [not_not] at hne
      rcases hinv with ⟨_, _, hlast⟩ | ⟨q, hqP, hlast, hall, hrank⟩
      · exfalso
        have hp0 : (0 : Int) ≤ p.score :=
          hpos p (hSP ▸ List.mem_append_right P (List.mem_cons_self p rest))
        rw [hne, hlast] at hp0
        exact absurd hp0 (by norm_num)
      · have hallq : ∀ x ∈ P ++ [p], last ≤ x.score := by
          intro x hx
          rcases List.mem_append.mp hx with hx2 | hx2
          · exact hall x hx2
          · rw [List.mem_singleton.mp hx2]
            exact le_of_eq hne.symm
        have hrec := ih (P ++ [p]) rank last
          (by rw [hSP, List.append_assoc]; rfl)
          (Or.inr ⟨q, List.mem_append_left [p] hqP, hlast, hallq, hrank⟩)
        rw [hlen] at hrec
        unfold rankWalk
        rw [if_neg (not_not_intro hne)]
        cases i with
        | zero =>
          simp only [List.get?_cons_zero, Option.map_some']
          rw [hrank, hne]
        | succ j =>
          rw [List.get?_cons_succ, List.get?_cons_succ]
          exact hrec j

end Brackets

namespace Brackets

/-- Claim C4: the ranking assigner stably sorts the score records by current
score descending (a permutation, descending scores, ties keeping input
order), and pairs each sorted record with one plus the index of the first
record sharing its score — ranks advance only when the score strictly
decreases; in particular scores `[50, 50, 30, 10]` yield ranks
`[1, 1, 3, 4]`, scores `[10, 10, 10]` yield `[1, 1, 1]` and an empty list
yields an empty ranked list.  (Engine score records are non-negative, which
the `-1` sentinel of the walk requires.) -/
theorem c4_ranking_assigner (l : List Row) (hpos : ∀ r ∈ l, 0 ≤ r.score) :
    (sortByScoreDesc l).Pairwise (fun a b => b.score ≤ a.score) ∧
    List.Perm (sortByScoreDesc l) l ∧
    (∀ s : Int, (sortByScoreDesc l).filter (fun q => q.score == s) =
      l.filter (fun q => q.score == s)) ∧
    (∀ i : Nat, (assignRanks l).get? i =
      ((sortByScoreDesc l).get? i).map (fun row =>
        (row,
          (sortByScoreDesc l).findIdx (fun x => x.score == row.score) + 1))) ∧
    assignRanks [⟨"a", 50⟩, ⟨"b", 50⟩, ⟨"c", 30⟩, ⟨"d", 10⟩] =
      [(⟨"a", 50⟩, 1), (⟨"b", 50⟩, 1), (⟨"c", 30⟩, 3), (⟨"d", 10⟩, 4)] ∧
    assignRanks [⟨"a", 10⟩, ⟨"b", 10⟩, ⟨"c", 10⟩] =
      [(⟨"a", 10⟩, 1), (⟨"b", 10⟩, 1), (⟨"c", 10⟩, 1)] ∧
    assignRanks ([] : List Row) = [] := by
  refine ⟨sortByScoreDesc_sorted l, sortByScoreDesc_perm l,
    fun s => sortByScoreDesc_filter s l, ?_, by decide, by decide, rfl⟩
  intro i
  exact rankWalk_spec (sortByScoreDesc_sorted l)
    (fun r hr => hpos r ((sortByScoreDesc_perm l).mem_iff.mp hr))
    (sortByScoreDesc l) [] 0 (-1) rfl (Or.inl ⟨rfl, rfl, rfl⟩) i

/-- Witness for `c4_ranking_assigner` at a concrete input: the two-row list
with scores 7 and 7 is already sorted, stable, and both rows get rank 1. -/
theorem c4_ranking_assigner_witness :
    (assignRanks [⟨"a", 7⟩, ⟨"b", 7⟩]).get? 1 =
      ((sortByScoreDesc [⟨"a", 7⟩, ⟨"b", 7⟩]).get? 1).map (fun row =>
        (row, (sortByScoreDesc [⟨"a", 7⟩, ⟨"b", 7⟩]).findIdx
          (fun x => x.score == row.score) + 1)) := by
  exact (c4_ranking_assigner [⟨"a", 7⟩, ⟨"b", 7⟩]
    (by intro r hr; simp only [List.mem_cons, List.mem_singleton] at hr
        rcases hr with rfl | rfl | h
        · decide
        · decide
        · simp at h)).2.2.2.1 1

end Brackets
